import Mathlib

set_option maxRecDepth 100000

/-!
Verification of the bag-of-words logistic-regression tutorial script
(`tutorial/zh/beginner_source/nlp/deep_learning_tutorial.py`).

The script is a linear program: it builds a word-to-index vocabulary from
training and test sentences, defines a one-layer linear model followed by a
log-softmax, and trains it for 100 epochs with negative-log-likelihood loss
and SGD.  We embed the script shallowly: Python dictionaries become
association lists, tensors become functions on `Fin`, fallible dictionary
lookups become `Option`, and the autograd/optimizer semantics are spelled
out explicitly on a model state carrying parameters and gradient buffers.
-/

namespace DeepLearningTutorial

/-- The four training examples: `data` in the script, each sentence already
split into words. -/
def data : List (List String × String) :=
  [ (["me", "gusta", "comer", "en", "la", "cafeteria"], "SPANISH"),
    (["Give", "it", "to", "me"], "ENGLISH"),
    (["No", "creo", "que", "sea", "una", "buena", "idea"], "SPANISH"),
    (["No", "it", "is", "not", "a", "good", "idea", "to", "get", "lost",
      "at", "sea"], "ENGLISH") ]

/-- The two test examples: `test_data` in the script. -/
def test_data : List (List String × String) :=
  [ (["Yo", "creo", "que", "si"], "SPANISH"),
    (["it", "is", "lost", "on", "me"], "ENGLISH") ]

/-- One step of the vocabulary-construction loop body:
`if word not in word_to_ix: word_to_ix[word] = len(word_to_ix)`.
The dictionary is an association list in insertion order, so
`len(word_to_ix)` is its length. -/
def insertWord (m : List (String × Nat)) (w : String) : List (String × Nat) :=
  if (m.lookup w).isSome then m else m ++ [(w, m.length)]

/-- The inner loop `for word in sent` over one sentence. -/
def insertSent (m : List (String × Nat)) (sent : List String) :
    List (String × Nat) :=
  sent.foldl insertWord m

/-- The full construction loop `for sent, _ in data + test_data`. -/
def buildVocab (examples : List (List String × String)) :
    List (String × Nat) :=
  examples.foldl (fun m p => insertSent m p.1) []

/-- The vocabulary `word_to_ix` built by the script. -/
def word_to_ix : List (String × Nat) := buildVocab (data ++ test_data)

/-- The constant `VOCAB_SIZE = len(word_to_ix)`. -/
def VOCAB_SIZE : Nat := word_to_ix.length

/-- The constant `NUM_LABELS = 2`. -/
def NUM_LABELS : Nat := 2

/-- The label dictionary `label_to_ix`, mapping "SPANISH" to 0 and
"ENGLISH" to 1. -/
def label_to_ix : List (String × Nat) := [("SPANISH", 0), ("ENGLISH", 1)]

/-- One increment `vec[word_to_ix[word]] += 1` for one word: a failed dictionary lookup
(Python `KeyError`) is `none`. -/
def bowStep (w2i : List (String × Nat)) (vec : List Nat) (w : String) :
    Option (List Nat) :=
  (w2i.lookup w).map fun i => vec.set i (vec.getD i 0 + 1)

/-- The function `make_bow_vector(sentence, word_to_ix)` before the final reshape:
start from `torch.zeros(len(word_to_ix))` and add one per word occurrence.
`none` models the `KeyError` raised on an out-of-vocabulary word. -/
def make_bow_vector (sentence : List String) (w2i : List (String × Nat)) :
    Option (List Nat) :=
  sentence.foldlM (bowStep w2i) (List.replicate w2i.length 0)

/-- The final `vec.view(1, -1)`: the count vector as a 1 × V row matrix. -/
def bow_row (sentence : List String) (w2i : List (String × Nat)) :
    Option (List (List Nat)) :=
  (make_bow_vector sentence w2i).map fun v => [v]

/-- The function `make_target(label, label_to_ix)`, returning
`torch.LongTensor([label_to_ix[label]])`;
`none` models the `KeyError` raised on an unknown label. -/
def make_target (label : String) (l2i : List (String × Nat)) :
    Option (List Nat) :=
  (l2i.lookup label).map fun i => [i]

/-- Softmax, `F.softmax(x, dim=0)`: the tutorial states its `i`-th component as
`exp(x_i) / ∑_j exp(x_j)`. -/
noncomputable def softmax {n : Nat} (x : Fin n → ℝ) : Fin n → ℝ :=
  fun i => Real.exp (x i) / ∑ j, Real.exp (x j)

/-- Modelled from the spec: `F.log_softmax(x, dim=0)` of the PyTorch
library, whose source is not in this repository; it computes
`x_i − log ∑_j exp(x_j)` (the numerically stable form of
`log(softmax(x)_i)`). -/
noncomputable def log_softmax {n : Nat} (x : Fin n → ℝ) : Fin n → ℝ :=
  fun i => x i - Real.log (∑ j, Real.exp (x j))

/-- The layer `nn.Linear(vocab_size, num_labels)` applied to a row vector: row `x`
is mapped to `x Aᵀ + b`, i.e. component `j` is `∑ k, A j k * x k + b j`. -/
noncomputable def linear {V L : Nat} (A : Fin L → Fin V → ℝ) (b : Fin L → ℝ)
    (x : Fin V → ℝ) : Fin L → ℝ :=
  fun j => (∑ k, A j k * x k) + b j

/-- The method `BoWClassifier.forward`, returning
`F.log_softmax(self.linear(bow_vec), dim=1)`,
on the single row of the 1 × V input. -/
noncomputable def forward {V L : Nat} (A : Fin L → Fin V → ℝ)
    (b : Fin L → ℝ) (x : Fin V → ℝ) : Fin L → ℝ :=
  log_softmax (linear A b x)

/-- The affine map of the spec, `f(x) = Ax + b` (rows as in the tutorial:
component `j` of `f(x)` pairs row `j` of `A` with `x` and adds `b j`). -/
noncomputable def affine {V L : Nat} (A : Fin L → Fin V → ℝ)
    (b : Fin L → ℝ) (x : Fin V → ℝ) : Fin L → ℝ :=
  fun j => (∑ k, A j k * x k) + b j

/-- Modelled from the spec: `nn.NLLLoss()` of the PyTorch library, whose
source is not in this repository; with the default mean reduction it
averages `−log_probs[b][target[b]]` over the batch. -/
noncomputable def nllLoss {B L : Nat} (logProbs : Fin B → Fin L → ℝ)
    (target : Fin B → Fin L) : ℝ :=
  (∑ b, -(logProbs b (target b))) / B

/-- Number of words of a sentence that the vocabulary maps to index `i`
(an accounting device for the bag-of-words proof). -/
def countIx (s : List String) (w2i : List (String × Nat)) (i : Nat) : Nat :=
  s.countP fun w => w2i.lookup w == some i

/-- The state of `model = BoWClassifier(NUM_LABELS, VOCAB_SIZE)`: the
weight `A` and bias `b` of `model.linear`, together with their gradient
buffers (`.grad`), which PyTorch stores alongside the parameters. -/
structure BoWModel where
  A : Fin NUM_LABELS → Fin VOCAB_SIZE → ℝ
  b : Fin NUM_LABELS → ℝ
  gradA : Fin NUM_LABELS → Fin VOCAB_SIZE → ℝ
  gradb : Fin NUM_LABELS → ℝ

/-- The call `model.zero_grad()`: clear the gradient buffers, leaving the
parameters untouched. -/
def zero_grad (m : BoWModel) : BoWModel :=
  { m with gradA := fun _ _ => 0, gradb := fun _ => 0 }

/-- Modelled from the spec: the gradient of the negative log-likelihood
loss `nn.NLLLoss()(log_softmax(z), t)` with respect to the logits `z`, as
computed by the autograd library absent from this repository:
`softmax(z)_j − [j = t]`. -/
noncomputable def gradLogits {L : Nat} (z : Fin L → ℝ) (t : Fin L) :
    Fin L → ℝ :=
  fun j => softmax z j - (if j = t then 1 else 0)

/-- Modelled from the spec: `loss.backward()` on
`loss = nn.NLLLoss()(model(x), t)` — autograd accumulates into the
gradient buffers the derivatives of the loss with respect to `A` and `b`:
`∂loss/∂A j k = gradLogits j * x k` and `∂loss/∂b j = gradLogits j`. -/
noncomputable def backward (m : BoWModel) (x : Fin VOCAB_SIZE → ℝ)
    (t : Fin NUM_LABELS) : BoWModel :=
  { m with
    gradA := fun j k =>
      m.gradA j k + gradLogits (linear m.A m.b x) t j * x k,
    gradb := fun j => m.gradb j + gradLogits (linear m.A m.b x) t j }

/-- The call `optimizer.step()` for `optim.SGD(model.parameters(), lr)`: one
gradient step `θ ← θ − lr · ∇θ`. -/
def sgd_step (lr : ℝ) (m : BoWModel) : BoWModel :=
  { m with
    A := fun j k => m.A j k - lr * m.gradA j k,
    b := fun j => m.b j - lr * m.gradb j }

/-- The bag-of-words vector of a sentence as the real row fed to the
model; out-of-vocabulary sentences (where `make_bow_vector` is `none`,
i.e. the script would raise) default to the zero vector. -/
noncomputable def bow_r (w2i : List (String × Nat)) (s : List String) :
    Fin VOCAB_SIZE → ℝ :=
  fun i =>
    (((make_bow_vector s w2i).getD (List.replicate w2i.length 0)).getD
      (i : Nat) 0 : ℝ)

/-- The target class index `label_to_ix[label]` as a `Fin NUM_LABELS`
(an unknown label, where the script would raise, defaults to class 0). -/
def target_of (l2i : List (String × Nat)) (label : String) :
    Fin NUM_LABELS :=
  if h : (l2i.lookup label).getD 0 < NUM_LABELS then
    ⟨(l2i.lookup label).getD 0, h⟩
  else ⟨0, by decide⟩

/-- The body of the inner training loop for one `(instance, label)` pair:
`model.zero_grad()`, build the BOW vector and the target, run the forward
pass, compute the NLL loss, `loss.backward()`, `optimizer.step()` with
`lr = 0.1`. -/
noncomputable def train_example (m : BoWModel) (ex : List String × String) :
    BoWModel :=
  sgd_step 0.1
    (backward (zero_grad m) (bow_r word_to_ix ex.1)
      (target_of label_to_ix ex.2))

/-- One pass (`for instance, label in data`) over the training set. -/
noncomputable def run_epoch (m : BoWModel) : BoWModel :=
  data.foldl train_example m

/-- The whole training phase: `for epoch in range(100)` passes. -/
noncomputable def run_training (m : BoWModel) : BoWModel :=
  (List.range 100).foldl (fun acc _ => run_epoch acc) m

/-- The script's global state at the start of training: the two
dictionaries, the two datasets, and the model. -/
structure ScriptState where
  w2i : List (String × Nat)
  l2i : List (String × Nat)
  dataS : List (List String × String)
  testS : List (List String × String)
  model : BoWModel

/-- The inner loop body acting on the whole script state: it reads the
dictionaries to build the BOW vector and the target and updates the
model. -/
noncomputable def train_example_s (st : ScriptState)
    (ex : List String × String) : ScriptState :=
  { st with
    model :=
      sgd_step 0.1
        (backward (zero_grad st.model) (bow_r st.w2i ex.1)
          (target_of st.l2i ex.2)) }

/-- One pass over the training set, on the whole script state. -/
noncomputable def run_epoch_s (st : ScriptState) : ScriptState :=
  st.dataS.foldl train_example_s st

/-- The 100-epoch training phase, on the whole script state. -/
noncomputable def run_training_s (st : ScriptState) : ScriptState :=
  (List.range 100).foldl (fun acc _ => run_epoch_s acc) st

/-- Modelled from the spec: the model's parameters are created by drawing
from the library's seeded pseudo-random generator (`nn.Linear`
initialization), here an arbitrary stream `gen` of draws; gradient
buffers start cleared. -/
noncomputable def init_model (gen : Nat → ℝ) : BoWModel :=
  { A := fun j k => gen ((j : Nat) * VOCAB_SIZE + (k : Nat)),
    b := fun j => gen (NUM_LABELS * VOCAB_SIZE + (j : Nat)),
    gradA := fun _ _ => 0,
    gradb := fun _ => 0 }

/-- The observable run of the script as a function of the random stream:
the printed test-set log-probabilities before training, the trained
model, and the printed test-set log-probabilities after training. -/
noncomputable def runScript (gen : Nat → ℝ) :
    List (Fin NUM_LABELS → ℝ) × BoWModel × List (Fin NUM_LABELS → ℝ) :=
  let m0 := init_model gen
  let before := test_data.map fun ex =>
    forward m0.A m0.b (bow_r word_to_ix ex.1)
  let m1 := run_training m0
  let after := test_data.map fun ex =>
    forward m1.A m1.b (bow_r word_to_ix ex.1)
  (before, m1, after)

/-- Modelled from the spec: `torch.manual_seed(1)` selects the generator
stream for seed 1 out of the library's seed-indexed family `rng` before
any random draw; the run consumes only that stream. -/
noncomputable def run_with_manual_seed (rng : Nat → Nat → ℝ) :
    List (Fin NUM_LABELS → ℝ) × BoWModel × List (Fin NUM_LABELS → ℝ) :=
  runScript (rng 1)

/-- A successful lookup in an association list survives appending. -/
lemma lookup_append_left {m m2 : List (String × Nat)} {w : String} {i : Nat}
    (h : m.lookup w = some i) : (m ++ m2).lookup w = some i := by
  induction m with
  | nil => simp [List.lookup] at h
  | cons p t ih =>
    obtain ⟨k, v⟩ := p
    cases hbeq : (w == k) with
    | true =>
      simp [List.lookup, hbeq] at h ⊢
      exact h
    | false =>
      simp [List.lookup, hbeq] at h ⊢
      exact ih h

/-- One loop body step never changes an index already assigned. -/
lemma lookup_insertWord {m : List (String × Nat)} {w : String} {i : Nat}
    (w2 : String) (h : m.lookup w = some i) :
    (insertWord m w2).lookup w = some i := by
  unfold insertWord
  split
  · exact h
  · exact lookup_append_left h

/-- Processing a whole sentence never changes an index already assigned. -/
lemma lookup_insertSent {w : String} {i : Nat} (sent : List String) :
    ∀ {m : List (String × Nat)}, m.lookup w = some i →
      (insertSent m sent).lookup w = some i := by
  induction sent with
  | nil => intro m h; exact h
  | cons x t ih =>
    intro m h
    exact ih (lookup_insertWord x h)

/-- Processing any list of further examples never changes an index already
assigned. -/
lemma lookup_foldl_examples {w : String} {i : Nat}
    (exs : List (List String × String)) :
    ∀ {m : List (String × Nat)}, m.lookup w = some i →
      (exs.foldl (fun m p => insertSent m p.1) m).lookup w = some i := by
  induction exs with
  | nil => intro m h; exact h
  | cons p t ih =>
    intro m h
    exact ih (lookup_insertSent p.1 h)

/-- A successful lookup exhibits a member of the association list. -/
lemma mem_of_lookup_eq_some {m : List (String × Nat)} {w : String} {i : Nat}
    (h : m.lookup w = some i) : (w, i) ∈ m := by
  induction m with
  | nil => simp [List.lookup] at h
  | cons p t ih =>
    obtain ⟨k, v⟩ := p
    cases hbeq : (w == k) with
    | true =>
      simp [List.lookup, hbeq] at h
      exact (eq_of_beq hbeq) ▸ h ▸ List.mem_cons_self _ _
    | false =>
      simp [List.lookup, hbeq] at h
      exact List.mem_cons_of_mem _ (ih h)

/-- Every index assigned by `word_to_ix` is below `VOCAB_SIZE`. -/
lemma word_to_ix_lt {w : String} {i : Nat}
    (h : word_to_ix.lookup w = some i) : i < VOCAB_SIZE := by
  have hm : i ∈ word_to_ix.map Prod.snd :=
    List.mem_map_of_mem Prod.snd (mem_of_lookup_eq_some h)
  have hall : ∀ x ∈ word_to_ix.map Prod.snd, x < VOCAB_SIZE := by decide
  exact hall i hm

/-- Distinct words receive distinct indices in `word_to_ix`. -/
lemma word_to_ix_inj {w x : String} {i : Nat}
    (hw : word_to_ix.lookup w = some i)
    (hx : word_to_ix.lookup x = some i) : w = x := by
  have hnd : (word_to_ix.map Prod.snd).Nodup := by decide
  have h :=
    List.inj_on_of_nodup_map hnd (mem_of_lookup_eq_some hw)
      (mem_of_lookup_eq_some hx) rfl
  exact congrArg Prod.fst h

/-- The bag-of-words fold succeeds on in-vocabulary sentences and adds, at
every index, exactly the number of sentence words mapped to that index. -/
lemma bow_foldlM_spec (w2i : List (String × Nat))
    (hval : ∀ w i, w2i.lookup w = some i → i < w2i.length) :
    ∀ s : List String, (∀ w ∈ s, (w2i.lookup w).isSome) →
    ∀ vec : List Nat, vec.length = w2i.length →
      ∃ r, s.foldlM (bowStep w2i) vec = some r ∧ r.length = w2i.length ∧
        ∀ i, r.getD i 0 = vec.getD i 0 + countIx s w2i i := by
  intro s
  induction s with
  | nil =>
    intro _ vec hlen
    refine ⟨vec, by simp, hlen, ?_⟩
    intro i
    simp [countIx]
  | cons x t ih =>
    intro hs vec hlen
    obtain ⟨j, hj⟩ := Option.isSome_iff_exists.mp (hs x (by simp))
    have hjlt : j < vec.length := hlen ▸ hval x j hj
    have hstep : bowStep w2i vec x = some (vec.set j (vec.getD j 0 + 1)) := by
      simp [bowStep, hj]
    obtain ⟨r, hr, hrlen, hri⟩ :=
      ih (fun w hw => hs w (by simp [hw]))
        (vec.set j (vec.getD j 0 + 1)) (by simp [hlen])
    refine ⟨r, ?_, hrlen, ?_⟩
    · rw [List.foldlM_cons, hstep]
      exact hr
    · intro i
      have hcount : countIx (x :: t) w2i i =
          countIx t w2i i + if j = i then 1 else 0 := by
        simp [countIx, List.countP_cons, hj]
      rw [hri i, hcount]
      by_cases hij : j = i
      · subst hij
        have : (vec.set j (vec.getD j 0 + 1)).getD j 0 = vec.getD j 0 + 1 := by
          rw [List.getD_eq_getElem?_getD, List.getElem?_set]
          simp [hjlt, List.getD_eq_getElem?_getD]
        rw [this]
        simp [Nat.add_comm, Nat.add_assoc, Nat.add_left_comm]
      · have : (vec.set j (vec.getD j 0 + 1)).getD i 0 = vec.getD i 0 := by
          rw [List.getD_eq_getElem?_getD, List.getElem?_set]
          simp [hij, List.getD_eq_getElem?_getD]
        rw [this]
        simp [hij, Nat.add_assoc]

/-- On an in-vocabulary sentence, words mapped to index `i` are exactly the
occurrences of the unique word `w` with `word_to_ix[w] = i`. -/
lemma countIx_eq_count {s : List String} {w : String} {i : Nat}
    (hw : word_to_ix.lookup w = some i) :
    countIx s word_to_ix i = s.count w := by
  unfold countIx List.count
  congr 1
  funext x
  show (word_to_ix.lookup x == some i) = (x == w)
  cases hx : word_to_ix.lookup x with
  | none =>
    cases hbeq : (x == w) with
    | true =>
      rw [eq_of_beq hbeq] at hx
      rw [hx] at hw
      exact absurd hw (by simp)
    | false => simp
  | some k =>
    by_cases hk : k = i
    · subst hk
      have : x = w := word_to_ix_inj hx hw
      subst this
      simp
    · cases hbeq : (x == w) with
      | true =>
        rw [eq_of_beq hbeq] at hx
        rw [hx] at hw
        exact absurd (Option.some_injective _ hw) hk
      | false => simp [hk]

/-- The bag-of-words fold succeeds exactly when every word is in the
vocabulary. -/
lemma bow_foldlM_isSome_iff (w2i : List (String × Nat)) :
    ∀ (s : List String) (vec : List Nat),
      (s.foldlM (bowStep w2i) vec).isSome ↔
        ∀ w ∈ s, (w2i.lookup w).isSome := by
  intro s
  induction s with
  | nil =>
    intro vec
    simp
  | cons x t ih =>
    intro vec
    rw [List.foldlM_cons]
    cases hx : w2i.lookup x with
    | none =>
      have hstep : bowStep w2i vec x = none := by simp [bowStep, hx]
      rw [hstep]
      have hbind :
          ((none : Option (List Nat)) >>= fun init =>
            List.foldlM (bowStep w2i) init t) = none := rfl
      rw [hbind]
      constructor
      · intro h
        exact Bool.noConfusion h
      · intro hall
        have hcontra := hall x (List.mem_cons_self x t)
        rw [hx] at hcontra
        exact Bool.noConfusion hcontra
    | some j =>
      have hstep :
          bowStep w2i vec x = some (vec.set j (vec.getD j 0 + 1)) := by
        simp [bowStep, hx]
      rw [hstep]
      have hbind :
          (some (vec.set j (vec.getD j 0 + 1)) >>= fun init =>
            List.foldlM (bowStep w2i) init t) =
          List.foldlM (bowStep w2i) (vec.set j (vec.getD j 0 + 1)) t := rfl
      rw [hbind, ih]
      constructor
      · intro h w hw
        rcases List.mem_cons.mp hw with h1 | h2
        · rw [h1, hx]
          rfl
        · exact h w h2
      · intro h w hw
        exact h w (List.mem_cons_of_mem _ hw)

/-- A zero vector of length `n` reads 0 everywhere. -/
lemma getD_replicate_zero (n i : Nat) :
    (List.replicate n (0 : Nat)).getD i 0 = 0 := by
  rw [List.getD_eq_getElem?_getD, List.getElem?_replicate]
  split <;> rfl

/-- The normalization constant `∑_j exp(x_j)` is positive on a nonempty
vector. -/
lemma sum_exp_pos {n : Nat} (x : Fin n → ℝ) (i : Fin n) :
    0 < ∑ j, Real.exp (x j) :=
  Finset.sum_pos (fun j _ => Real.exp_pos (x j)) ⟨i, Finset.mem_univ i⟩

/-- The stable form `x_i − log ∑ exp(x_j)` is the logarithm of the softmax
component. -/
lemma log_softmax_eq_log_comp_softmax {n : Nat} (x : Fin n → ℝ) (i : Fin n) :
    log_softmax x i = Real.log (softmax x i) := by
  rw [softmax, log_softmax,
    Real.log_div (Real.exp_ne_zero (x i)) (ne_of_gt (sum_exp_pos x i)),
    Real.log_exp]

/-- Varying one logit, the normalization constant is `exp v` plus a
constant. -/
lemma sum_exp_update {L : Nat} (z : Fin L → ℝ) (j : Fin L) (v : ℝ) :
    ∑ l, Real.exp (Function.update z j v l) =
      Real.exp v + ∑ l ∈ Finset.univ \ {j}, Real.exp (z l) := by
  have h : ∀ l, Real.exp (Function.update z j v l) =
      Function.update (fun l => Real.exp (z l)) j (Real.exp v) l :=
    fun l => Function.apply_update (fun _ w => Real.exp w) z j v l
  rw [Finset.sum_congr rfl fun l _ => h l]
  exact Finset.sum_update_of_mem (Finset.mem_univ j) _ _

/-- The normalization constant has derivative `exp (z j)` in the `j`-th
logit. -/
lemma hasDerivAt_sum_exp_update {L : Nat} (z : Fin L → ℝ) (j : Fin L) :
    HasDerivAt (fun v => ∑ l, Real.exp (Function.update z j v l))
      (Real.exp (z j)) (z j) := by
  have heq : (fun v => ∑ l, Real.exp (Function.update z j v l)) =
      fun v => Real.exp v + ∑ l ∈ Finset.univ \ {j}, Real.exp (z l) := by
    funext v
    exact sum_exp_update z j v
  rw [heq]
  exact (Real.hasDerivAt_exp (z j)).add_const _

/-- Faithfulness of the modelled autograd: the derivative of the loss
`−log_softmax(z)_t` with respect to the `j`-th logit is
`softmax(z)_j − [j = t]`, i.e. `gradLogits z t j`. -/
lemma hasDerivAt_nll_logit {L : Nat} (z : Fin L → ℝ) (t j : Fin L) :
    HasDerivAt (fun v => -(log_softmax (Function.update z j v) t))
      (gradLogits z t j) (z j) := by
  have hS0 : (∑ l, Real.exp (Function.update z j (z j) l)) =
      ∑ l, Real.exp (z l) := by
    rw [Function.update_eq_self]
  have hSne : (∑ l, Real.exp (Function.update z j (z j) l)) ≠ 0 := by
    rw [hS0]
    exact ne_of_gt (sum_exp_pos z j)
  have hlog :
      HasDerivAt
        (fun v => Real.log (∑ l, Real.exp (Function.update z j v l)))
        (Real.exp (z j) / (∑ l, Real.exp (Function.update z j (z j) l)))
        (z j) :=
    (hasDerivAt_sum_exp_update z j).log hSne
  have hT : HasDerivAt (fun v => Function.update z j v t)
      (if t = j then 1 else 0) (z j) := by
    by_cases htj : t = j
    · subst htj
      simp only [Function.update_same, if_pos rfl]
      exact hasDerivAt_id (z t)
    · simp only [Function.update_noteq htj, if_neg htj]
      exact hasDerivAt_const (z j) (z t)
  have hcomb := (hT.sub hlog).neg
  have hval : gradLogits z t j =
      -((if t = j then (1 : ℝ) else 0) -
        Real.exp (z j) / (∑ l, Real.exp (Function.update z j (z j) l))) := by
    rw [hS0]
    unfold gradLogits softmax
    by_cases htj : t = j
    · subst htj
      simp
    · have hjt : ¬(j = t) := fun h => htj h.symm
      simp [htj, hjt]
  rw [hval]
  exact hcomb

/-- Faithfulness of the modelled autograd for the bias: the loss of one
example has derivative `gradLogits (linear A b x) t j` in `b j`. -/
lemma hasDerivAt_loss_wrt_b {V L : Nat} (A : Fin L → Fin V → ℝ)
    (b : Fin L → ℝ) (x : Fin V → ℝ) (t j : Fin L) :
    HasDerivAt
      (fun v => -(log_softmax (linear A (Function.update b j v) x) t))
      (gradLogits (linear A b x) t j) (b j) := by
  have hlin : ∀ v, linear A (Function.update b j v) x =
      Function.update (linear A b x) j ((∑ k, A j k * x k) + v) := by
    intro v
    funext l
    by_cases hl : l = j
    · subst hl
      rw [Function.update_same]
      show (∑ k, A l k * x k) + Function.update b l v l = _
      rw [Function.update_same]
    · rw [Function.update_noteq hl]
      show (∑ k, A l k * x k) + Function.update b j v l = linear A b x l
      rw [Function.update_noteq hl]
      rfl
  have hinner : HasDerivAt (fun v => (∑ k, A j k * x k) + v) 1 (b j) :=
    (hasDerivAt_id (b j)).const_add _
  have hg : HasDerivAt
      (fun w => -(log_softmax (Function.update (linear A b x) j w) t))
      (gradLogits (linear A b x) t j) ((∑ k, A j k * x k) + b j) :=
    hasDerivAt_nll_logit (linear A b x) t j
  have hcomp := HasDerivAt.comp (b j) hg hinner
  rw [mul_one] at hcomp
  have hfun :
      (fun v => -(log_softmax (linear A (Function.update b j v) x) t)) =
        (fun w => -(log_softmax (Function.update (linear A b x) j w) t)) ∘
          (fun v => (∑ k, A j k * x k) + v) := by
    funext v
    show -(log_softmax (linear A (Function.update b j v) x) t) = _
    rw [Function.comp_apply, hlin v]
  rw [hfun]
  exact hcomp

/-- Faithfulness of the modelled autograd for the weights: the loss of
one example has derivative `gradLogits (linear A b x) t j * x k` in
`A j k`. -/
lemma hasDerivAt_loss_wrt_A {V L : Nat} (A : Fin L → Fin V → ℝ)
    (b : Fin L → ℝ) (x : Fin V → ℝ) (t j : Fin L) (k : Fin V) :
    HasDerivAt
      (fun v => -(log_softmax
        (linear (Function.update A j (Function.update (A j) k v)) b x) t))
      (gradLogits (linear A b x) t j * x k) (A j k) := by
  set c : ℝ := ∑ k2 ∈ Finset.univ \ {k}, A j k2 * x k2 with hc
  have hrow : ∀ v, (∑ k2, Function.update (A j) k v k2 * x k2) =
      v * x k + c := by
    intro v
    have h : ∀ k2, Function.update (A j) k v k2 * x k2 =
        Function.update (fun k2 => A j k2 * x k2) k (v * x k) k2 :=
      fun k2 => Function.apply_update (fun k2 w => w * x k2) (A j) k v k2
    rw [Finset.sum_congr rfl fun k2 _ => h k2]
    exact Finset.sum_update_of_mem (Finset.mem_univ k) _ _
  have hlin : ∀ v,
      linear (Function.update A j (Function.update (A j) k v)) b x =
        Function.update (linear A b x) j (v * x k + c + b j) := by
    intro v
    funext l
    by_cases hl : l = j
    · subst hl
      rw [Function.update_same]
      show (∑ k2, Function.update A l (Function.update (A l) k v) l k2 *
        x k2) + b l = _
      rw [Function.update_same, hrow v]
    · rw [Function.update_noteq hl]
      show (∑ k2, Function.update A j (Function.update (A j) k v) l k2 *
        x k2) + b l = linear A b x l
      rw [Function.update_noteq hl]
      rfl
  have hpoint : A j k * x k + c + b j = linear A b x j := by
    have h1 : A j k * x k + c = ∑ k2, A j k2 * x k2 := by
      rw [hc, ← Finset.erase_eq]
      exact Finset.add_sum_erase Finset.univ (fun k2 => A j k2 * x k2)
        (Finset.mem_univ k)
    rw [h1]
    rfl
  have hinner : HasDerivAt (fun v => v * x k + c + b j) (x k) (A j k) := by
    have h1 : HasDerivAt (fun v : ℝ => v * x k) (x k) (A j k) := by
      have := (hasDerivAt_id (A j k)).mul_const (x k)
      rw [one_mul] at this
      exact this
    exact (h1.add_const c).add_const (b j)
  have hg : HasDerivAt
      (fun w => -(log_softmax (Function.update (linear A b x) j w) t))
      (gradLogits (linear A b x) t j) (A j k * x k + c + b j) := by
    rw [hpoint]
    exact hasDerivAt_nll_logit (linear A b x) t j
  have hcomp := HasDerivAt.comp (A j k) hg hinner
  have hfun :
      (fun v => -(log_softmax
        (linear (Function.update A j (Function.update (A j) k v)) b x)
        t)) =
        (fun w => -(log_softmax (Function.update (linear A b x) j w) t)) ∘
          (fun v => v * x k + c + b j) := by
    funext v
    show -(log_softmax
      (linear (Function.update A j (Function.update (A j) k v)) b x) t) = _
    rw [Function.comp_apply, hlin v]
  rw [hfun]
  exact hcomp

/-- A fold over `range n` that ignores the counter is an `n`-fold
iterate. -/
lemma foldl_range_const {α : Type*} (f : α → α) (n : Nat) (a : α) :
    (List.range n).foldl (fun acc _ => f acc) a = f^[n] a := by
  induction n with
  | zero => rfl
  | succ k ih =>
    rw [List.range_succ, List.foldl_append, ih,
      Function.iterate_succ_apply']
    rfl

/-- One inner-loop iteration leaves the dictionaries and datasets of the
script state unchanged. -/
lemma train_example_s_frame (st : ScriptState) (ex : List String × String) :
    (train_example_s st ex).w2i = st.w2i ∧
    (train_example_s st ex).l2i = st.l2i ∧
    (train_example_s st ex).dataS = st.dataS ∧
    (train_example_s st ex).testS = st.testS :=
  ⟨rfl, rfl, rfl, rfl⟩

/-- Folding the inner-loop body over any list of examples leaves the
dictionaries and datasets unchanged. -/
lemma foldl_train_example_s_frame (l : List (List String × String)) :
    ∀ st : ScriptState,
      (l.foldl train_example_s st).w2i = st.w2i ∧
      (l.foldl train_example_s st).l2i = st.l2i ∧
      (l.foldl train_example_s st).dataS = st.dataS ∧
      (l.foldl train_example_s st).testS = st.testS := by
  induction l with
  | nil => intro st; exact ⟨rfl, rfl, rfl, rfl⟩
  | cons x t ih =>
    intro st
    exact ih (train_example_s st x)

/-- Any number of epochs leaves the dictionaries and datasets
unchanged. -/
lemma iterate_run_epoch_s_frame (n : Nat) :
    ∀ st : ScriptState,
      (run_epoch_s^[n] st).w2i = st.w2i ∧
      (run_epoch_s^[n] st).l2i = st.l2i ∧
      (run_epoch_s^[n] st).dataS = st.dataS ∧
      (run_epoch_s^[n] st).testS = st.testS := by
  induction n with
  | zero => intro st; exact ⟨rfl, rfl, rfl, rfl⟩
  | succ k ih =>
    intro st
    rw [Function.iterate_succ_apply]
    obtain ⟨h1, h2, h3, h4⟩ := ih (run_epoch_s st)
    obtain ⟨g1, g2, g3, g4⟩ := foldl_train_example_s_frame st.dataS st
    exact ⟨h1.trans g1, h2.trans g2, h3.trans g3, h4.trans g4⟩

end DeepLearningTutorial

namespace DeepLearningTutorial

/-- C4: index assignment is stable once first seen.  If after processing any
prefix of the examples `data + test_data` the word `w` is mapped to index
`i`, then `w` is still mapped to `i` in the final `word_to_ix`; more
generally, from any intermediate dictionary state, one loop body step, one
whole sentence, and any list of further examples all preserve an index
already assigned. -/
theorem word_to_ix_stable_once_seen (w : String) (i : Nat) :
    (∀ pre post : List (List String × String),
      data ++ test_data = pre ++ post →
      (buildVocab pre).lookup w = some i → word_to_ix.lookup w = some i) ∧
    (∀ (m : List (String × Nat)) (w2 : String), m.lookup w = some i →
      (insertWord m w2).lookup w = some i) ∧
    (∀ (m : List (String × Nat)) (sent : List String),
      m.lookup w = some i → (insertSent m sent).lookup w = some i) ∧
    (∀ (m : List (String × Nat)) (exs : List (List String × String)),
      m.lookup w = some i →
      (exs.foldl (fun m p => insertSent m p.1) m).lookup w = some i) := by
  refine ⟨?_, ?_, ?_, ?_⟩
  · intro pre post hsplit h
    have : word_to_ix =
        post.foldl (fun m p => insertSent m p.1) (buildVocab pre) := by
      rw [word_to_ix, buildVocab, hsplit, List.foldl_append]
      rfl
    rw [this]
    exact lookup_foldl_examples post h
  · intro m w2 h
    exact lookup_insertWord w2 h
  · intro m sent h
    exact lookup_insertSent sent h
  · intro m exs h
    exact lookup_foldl_examples exs h

/-- Witness for C4: the word `"me"` receives index 0 in the first sentence,
and keeps it through the rest of the construction — in particular in the
final `word_to_ix`. -/
theorem word_to_ix_stable_once_seen_witness :
    (data ++ test_data = [data.headI] ++ (data.tail ++ test_data) ∧
      (buildVocab [data.headI]).lookup "me" = some 0) ∧
    word_to_ix.lookup "me" = some 0 :=
  ⟨⟨by decide, by decide⟩,
    (word_to_ix_stable_once_seen "me" 0).1 [data.headI]
      (data.tail ++ test_data) (by decide) (by decide)⟩

/-- C2: on a sentence all of whose words are vocabulary keys,
`make_bow_vector` returns a vector of length `len(word_to_ix)` (reshaped by
`view(1, -1)` to a 1 × `len(word_to_ix)` row) whose entry at
`word_to_ix[w]` is the number of occurrences of `w` in the sentence, for
every word `w`, and is 0 at every index belonging to no word of the
sentence. -/
theorem make_bow_vector_spec (s : List String)
    (hs : ∀ w ∈ s, (word_to_ix.lookup w).isSome) :
    ∃ v, make_bow_vector s word_to_ix = some v ∧
      v.length = VOCAB_SIZE ∧
      bow_row s word_to_ix = some [v] ∧
      (∀ w i, word_to_ix.lookup w = some i → v.getD i 0 = s.count w) ∧
      (∀ i, (∀ w ∈ s, ¬ word_to_ix.lookup w = some i) → v.getD i 0 = 0) := by
  obtain ⟨r, hr, hrlen, hri⟩ :=
    bow_foldlM_spec word_to_ix (fun w i h => word_to_ix_lt h) s hs
      (List.replicate word_to_ix.length 0) (List.length_replicate _ _)
  refine ⟨r, hr, hrlen, ?_, ?_, ?_⟩
  · rw [bow_row, make_bow_vector] at *
    rw [hr]
    rfl
  · intro w i hw
    rw [hri i, getD_replicate_zero, Nat.zero_add]
    exact countIx_eq_count hw
  · intro i hnone
    rw [hri i, getD_replicate_zero, Nat.zero_add]
    exact List.countP_eq_zero.mpr fun w hw => by
      simpa using hnone w hw

/-- Witness for C2: the sentence `["me", "la", "me"]` is in-vocabulary and
its bag-of-words vector satisfies the specification. -/
theorem make_bow_vector_spec_witness :
    (∀ w ∈ (["me", "la", "me"] : List String),
      (word_to_ix.lookup w).isSome) ∧
    (∃ v, make_bow_vector ["me", "la", "me"] word_to_ix = some v ∧
      v.length = VOCAB_SIZE ∧
      bow_row ["me", "la", "me"] word_to_ix = some [v] ∧
      (∀ w i, word_to_ix.lookup w = some i →
        v.getD i 0 = (["me", "la", "me"] : List String).count w) ∧
      (∀ i, (∀ w ∈ (["me", "la", "me"] : List String),
        ¬ word_to_ix.lookup w = some i) → v.getD i 0 = 0)) :=
  ⟨by decide, make_bow_vector_spec ["me", "la", "me"] (by decide)⟩

/-- C10: `make_bow_vector` is defined exactly when every word of the
sentence is a key of the vocabulary and `make_target` exactly when the
label is a key of `label_to_ix`; a failed lookup is the `KeyError` branch
(`none`), unreachable under the in-vocabulary precondition. -/
theorem make_bow_make_target_defined (w2i l2i : List (String × Nat)) :
    (∀ sentence : List String,
      (make_bow_vector sentence w2i).isSome ↔
        ∀ w ∈ sentence, (w2i.lookup w).isSome) ∧
    (∀ label : String,
      (make_target label l2i).isSome ↔ (l2i.lookup label).isSome) := by
  constructor
  · intro sentence
    exact bow_foldlM_isSome_iff w2i sentence _
  · intro label
    rw [make_target]
    cases l2i.lookup label <;> simp

/-- C5: `F.softmax(x, dim=0)` on a (nonempty) real vector is a
probability distribution: every component is non-negative and the
components sum to 1. -/
theorem softmax_is_probability_distribution {n : Nat} (x : Fin (n + 1) → ℝ) :
    (∀ i, 0 ≤ softmax x i) ∧ ∑ i, softmax x i = 1 := by
  constructor
  · intro i
    exact div_nonneg (Real.exp_pos (x i)).le (sum_exp_pos x i).le
  · unfold softmax
    rw [← Finset.sum_div]
    exact div_self (ne_of_gt (sum_exp_pos x 0))

/-- C6: `F.log_softmax(x, dim=0)` is the elementwise natural logarithm of
`F.softmax(x, dim=0)`. -/
theorem log_softmax_is_log_of_softmax {n : Nat} (x : Fin n → ℝ) (i : Fin n) :
    log_softmax x i = Real.log (softmax x i) :=
  log_softmax_eq_log_comp_softmax x i

/-- C3: `BoWClassifier.forward(x)` is log-softmax applied to the affine
map `Ax + b` given by the weight and bias of the single linear layer:
`forward = log Softmax(Ax + b)`. -/
theorem forward_is_log_softmax_of_affine {V L : Nat}
    (A : Fin L → Fin V → ℝ) (b : Fin L → ℝ) (x : Fin V → ℝ) :
    (∀ i, forward A b x i = log_softmax (affine A b x) i) ∧
    (∀ i, forward A b x i = Real.log (softmax (affine A b x) i)) := by
  have haff : linear A b x = affine A b x := rfl
  constructor
  · intro i
    rw [forward, haff]
  · intro i
    rw [forward, haff]
    exact log_softmax_eq_log_comp_softmax (affine A b x) i

/-- C7: on a batch of one row, `nn.NLLLoss()` applied to log-probabilities
and a target class is the negated log-probability of the correct class,
and it is strictly antitone in that log-probability: assigning a lower
log-probability (hence a lower probability) to the correct class gives a
strictly higher loss. -/
theorem nllLoss_neg_log_prob_of_target {L : Nat}
    (lp lp2 : Fin L → ℝ) (t : Fin L) (hlt : lp2 t < lp t) :
    nllLoss (fun _ : Fin 1 => lp) (fun _ => t) = -(lp t) ∧
    nllLoss (fun _ : Fin 1 => lp) (fun _ => t) <
      nllLoss (fun _ : Fin 1 => lp2) (fun _ => t) := by
  have h1 : ∀ f : Fin L → ℝ,
      nllLoss (fun _ : Fin 1 => f) (fun _ => t) = -(f t) := by
    intro f
    unfold nllLoss
    rw [Fin.sum_univ_one]
    norm_num
  refine ⟨h1 lp, ?_⟩
  rw [h1 lp, h1 lp2]
  exact neg_lt_neg hlt

/-- Witness for C7: with log-probabilities `−1` for the correct class in
one run and `−2` in another, the loss is `1` in the first and larger in
the second. -/
theorem nllLoss_neg_log_prob_of_target_witness :
    ((fun _ : Fin 1 => (-2 : ℝ)) 0 < (fun _ : Fin 1 => (-1 : ℝ)) 0) ∧
    (nllLoss (fun _ : Fin 1 => fun _ : Fin 1 => (-1 : ℝ)) (fun _ => 0) =
        -((fun _ : Fin 1 => (-1 : ℝ)) 0) ∧
      nllLoss (fun _ : Fin 1 => fun _ : Fin 1 => (-1 : ℝ)) (fun _ => 0) <
        nllLoss (fun _ : Fin 1 => fun _ : Fin 1 => (-2 : ℝ)) (fun _ => 0)) :=
  ⟨by norm_num,
    nllLoss_neg_log_prob_of_target (fun _ : Fin 1 => (-1 : ℝ))
      (fun _ : Fin 1 => (-2 : ℝ)) 0 (by norm_num)⟩

/-- C1: the training phase is exactly 100 passes over the 4-element
training list `data`; each pass handles every example in order, and for
each example the step zeroes the gradients, builds the BOW vector and the
target (both lookups succeed on every training example), runs the model
forward, computes the NLL loss, backpropagates, and applies one SGD
update — so, thanks to `zero_grad`, the parameters move by exactly
`lr = 0.1` times this single example's loss gradient, with no
accumulation from earlier iterations. -/
theorem training_loop_structure :
    (∀ m : BoWModel, run_training m = run_epoch^[100] m) ∧
    data.length = 4 ∧
    (∀ m : BoWModel, run_epoch m = data.foldl train_example m) ∧
    (data.all fun ex => (make_bow_vector ex.1 word_to_ix).isSome &&
      (label_to_ix.lookup ex.2).isSome) = true ∧
    (∀ (m : BoWModel) (ex : List String × String),
      train_example m ex =
        sgd_step 0.1
          (backward (zero_grad m) (bow_r word_to_ix ex.1)
            (target_of label_to_ix ex.2))) ∧
    (∀ m : BoWModel, (zero_grad m).A = m.A ∧ (zero_grad m).b = m.b ∧
      (zero_grad m).gradA = (fun _ _ => 0) ∧
      (zero_grad m).gradb = (fun _ => 0)) ∧
    (∀ (m : BoWModel) (x : Fin VOCAB_SIZE → ℝ) (t : Fin NUM_LABELS),
      sgd_step 0.1 (backward (zero_grad m) x t) =
        { A := fun j k => m.A j k -
            0.1 * (gradLogits (linear m.A m.b x) t j * x k),
          b := fun j => m.b j - 0.1 * gradLogits (linear m.A m.b x) t j,
          gradA := fun j k => gradLogits (linear m.A m.b x) t j * x k,
          gradb := fun j => gradLogits (linear m.A m.b x) t j }) := by
  refine ⟨?_, by decide, fun m => rfl, by decide, fun m ex => rfl,
    fun m => ⟨rfl, rfl, rfl, rfl⟩, ?_⟩
  · intro m
    exact foldl_range_const run_epoch 100 m
  · intro m x t
    cases m with
    | mk A b gA gb =>
      simp only [sgd_step, backward, zero_grad, BoWModel.mk.injEq]
      refine ⟨?_, ?_, ?_, ?_⟩ <;> funext <;> ring

/-- C8: the training loop mutates only the model: each iteration of the
inner loop rewrites only the `model` field of the script state, and both
each iteration and the whole 100-epoch loop leave `word_to_ix`,
`label_to_ix`, `data` and `test_data` unchanged. -/
theorem training_mutates_only_model (st : ScriptState) :
    (∀ ex : List String × String,
      train_example_s st ex =
        { st with model := (train_example_s st ex).model }) ∧
    (∀ ex : List String × String,
      (train_example_s st ex).w2i = st.w2i ∧
      (train_example_s st ex).l2i = st.l2i ∧
      (train_example_s st ex).dataS = st.dataS ∧
      (train_example_s st ex).testS = st.testS) ∧
    ((run_training_s st).w2i = st.w2i ∧
      (run_training_s st).l2i = st.l2i ∧
      (run_training_s st).dataS = st.dataS ∧
      (run_training_s st).testS = st.testS) := by
  refine ⟨fun ex => rfl, fun ex => train_example_s_frame st ex, ?_⟩
  have hiter : run_training_s st = run_epoch_s^[100] st :=
    foldl_range_const run_epoch_s 100 st
  rw [hiter]
  exact iterate_run_epoch_s_frame 100 st

/-- C9: the script is deterministic given the seed: its sole source of
entropy is the library generator, fixed to the stream for seed 1 by
`torch.manual_seed(1)` before any random draw, so two runs whose
generator families agree at seed 1 compute identical models and print
identical log-probabilities. -/
theorem script_deterministic_given_seed (rng1 rng2 : Nat → Nat → ℝ)
    (h : rng1 1 = rng2 1) :
    run_with_manual_seed rng1 = run_with_manual_seed rng2 := by
  rw [run_with_manual_seed, run_with_manual_seed, h]

/-- Witness for C9: two runs with the same generator family coincide. -/
theorem script_deterministic_given_seed_witness :
    ((fun _ _ : Nat => (0 : ℝ)) 1 = (fun _ _ : Nat => (0 : ℝ)) 1) ∧
    run_with_manual_seed (fun _ _ : Nat => (0 : ℝ)) =
      run_with_manual_seed (fun _ _ : Nat => (0 : ℝ)) :=
  ⟨rfl, script_deterministic_given_seed (fun _ _ : Nat => (0 : ℝ))
    (fun _ _ : Nat => (0 : ℝ)) rfl⟩

end DeepLearningTutorial
